import Mathlib

/-!
Shallow embedding of the JPEG encoding pipeline of alt-libcamera-apps
(src/encoder/jpeg_encoder.cpp), together with proofs about segment
assembly, compressor row-pointer clamping, EXIF metadata construction,
and the submission / worker / output-reassembly state machine.
-/

namespace JE

/-! ## Segment assembly (JpegEncoder::encodeThread, jpeg_encoder.cpp lines 315-326) -/

/-- `exif_header` from jpeg_encoder.cpp line 24: `{ 0xff, 0xd8, 0xff, 0xe1 }`. -/
def exif_header : List Nat := [0xff, 0xd8, 0xff, 0xe1]

/-- `exif_image_offset` from jpeg_encoder.cpp line 23: offset of image in the
compressor's own JPEG buffer at which the entropy-coded data is spliced out. -/
def exif_image_offset : Nat := 20

/-- The byte stream written by `encodeThread` (lines 320-323): the 4-byte
`exif_header`, the high byte of `exif_len + thumb_len + 2` (`fputc` converts its
argument to `unsigned char`, i.e. reduces it mod 256), the low byte
(`& 0xff`), the EXIF buffer, the thumbnail (writing it is skipped when
`thumb_len` is 0, which coincides with appending the empty list), and the
compressed JPEG from `exif_image_offset` to its end. -/
def assembleSegment (exif thumb jpeg : List Nat) : List Nat :=
  exif_header
    ++ [((exif.length + thumb.length + 2) >>> 8) % 256,
        (exif.length + thumb.length + 2) &&& 0xff]
    ++ exif ++ thumb ++ List.drop exif_image_offset jpeg

/-- The on-wire segment format exactly as the spec describes it (spec section 6):
`[4-byte marker][2-byte big-endian length L = metadata_len + thumbnail_len + 2]`
`[metadata block][thumbnail][compressed image bytes from offset K to end]`. -/
def segment_format_spec (metadata thumbnail image : List Nat) : List Nat :=
  exif_header
    ++ [(metadata.length + thumbnail.length + 2) / 256,
        (metadata.length + thumbnail.length + 2) % 256]
    ++ metadata ++ thumbnail ++ List.drop exif_image_offset image

/-! ## Compressor row pointers (JpegEncoder::encodeJPEG, jpeg_encoder.cpp lines 74-95)

Pointers are modelled as natural-number addresses; `mem` is the base address of
the raw YUV420 buffer.  The definitions below transcribe lines 74-95. -/

/-- Geometry of one raw frame (`StreamInfo`): width, height, stride in bytes. -/
structure StreamInfo where
  width : Nat
  height : Nat
  stride : Nat
deriving DecidableEq, Repr

/-- `int stride2 = item.info.stride / 2;` (line 74). -/
def stride2 (info : StreamInfo) : Nat := info.stride / 2

/-- `uint8_t *Y = (uint8_t *)item.mem;` (line 75). -/
def Y_base (mem : Nat) : Nat := mem

/-- `uint8_t *U = (uint8_t *)Y + item.info.stride * item.info.height;` (line 76). -/
def U_base (mem : Nat) (info : StreamInfo) : Nat := mem + info.stride * info.height

/-- `uint8_t *V = (uint8_t *)U + stride2 * (item.info.height / 2);` (line 77). -/
def V_base (mem : Nat) (info : StreamInfo) : Nat :=
  U_base mem info + stride2 info * (info.height / 2)

/-- `uint8_t *Y_max = U - item.info.stride;` (line 78). -/
def Y_max (mem : Nat) (info : StreamInfo) : Nat := U_base mem info - info.stride

/-- `uint8_t *U_max = V - stride2;` (line 79). -/
def U_max (mem : Nat) (info : StreamInfo) : Nat := V_base mem info - stride2 info

/-- `uint8_t *V_max = U_max + stride2 * (item.info.height / 2);` (line 80). -/
def V_max (mem : Nat) (info : StreamInfo) : Nat :=
  U_max mem info + stride2 info * (info.height / 2)

/-- Luma row pointer supplied for scanline `r` (lines 86-89): the running
pointer `Y + r * stride` clamped with `std::min` against `Y_max`. -/
def y_row (mem : Nat) (info : StreamInfo) (r : Nat) : Nat :=
  min (Y_base mem + r * info.stride) (Y_max mem info)

/-- Chroma U row pointer supplied for chroma row `c` (lines 90-91). -/
def u_row (mem : Nat) (info : StreamInfo) (c : Nat) : Nat :=
  min (U_base mem info + c * stride2 info) (U_max mem info)

/-- Chroma V row pointer supplied for chroma row `c` (lines 90-91). -/
def v_row (mem : Nat) (info : StreamInfo) (c : Nat) : Nat :=
  min (V_base mem info + c * stride2 info) (V_max mem info)

/-- Number of 16-row bands processed by the loop at lines 86-95:
`jpeg_write_raw_data` advances `next_scanline` by 16 per call and the loop
runs while `next_scanline < height`, so `ceil(height / 16)` bands run. -/
def numBands (h : Nat) : Nat := (h + 15) / 16

theorem Y_max_eq (mem : Nat) (info : StreamInfo) (h1 : 1 ≤ info.height) :
    Y_max mem info = mem + (info.height - 1) * info.stride := by
  unfold Y_max U_base
  have hs : info.stride ≤ info.stride * info.height :=
    Nat.le_mul_of_pos_right _ h1
  rw [Nat.add_sub_assoc hs]
  congr 1
  rw [Nat.sub_mul, one_mul, Nat.mul_comm]

theorem U_max_eq (mem : Nat) (info : StreamInfo) (h1 : 1 ≤ info.height / 2) :
    U_max mem info = U_base mem info + (info.height / 2 - 1) * stride2 info := by
  unfold U_max V_base
  have hs : stride2 info ≤ stride2 info * (info.height / 2) :=
    Nat.le_mul_of_pos_right _ h1
  rw [Nat.add_sub_assoc hs]
  congr 1
  rw [Nat.sub_mul, one_mul, Nat.mul_comm]

theorem V_max_eq (mem : Nat) (info : StreamInfo) (h1 : 1 ≤ info.height / 2) :
    V_max mem info = V_base mem info + (info.height / 2 - 1) * stride2 info := by
  unfold V_max V_base
  rw [U_max_eq mem info h1]
  omega

theorem and_255_eq_mod (x : Nat) : x &&& 255 = x % 256 := by
  apply Nat.eq_of_testBit_eq
  intro i
  rw [Nat.testBit_and, show (255 : Nat) = 2 ^ 8 - 1 from rfl, Nat.testBit_two_pow_sub_one,
    show (256 : Nat) = 2 ^ 8 from rfl, Nat.testBit_mod_two_pow, Bool.and_comm]

/-- C8: for every successfully encoded frame, the assembled output segment is
bit-exactly a 4-byte marker, a 2-byte big-endian length
`L = metadata_len + thumbnail_len + 2`, the metadata block, the thumbnail
bytes if any, then the compressed image bytes from the compressor's fixed
header offset `K = exif_image_offset = 20` to its end.  The big-endian pair
represents `L` exactly because `L < 65536`. -/
theorem c8_segment_layout (exif thumb jpeg : List Nat)
    (hL : exif.length + thumb.length + 2 < 65536) :
    assembleSegment exif thumb jpeg = segment_format_spec exif thumb jpeg := by
  unfold assembleSegment segment_format_spec
  have h1 : (exif.length + thumb.length + 2) &&& 0xff
      = (exif.length + thumb.length + 2) % 256 := and_255_eq_mod _
  have h2 : ((exif.length + thumb.length + 2) >>> 8) % 256
      = (exif.length + thumb.length + 2) / 256 := by
    rw [Nat.shiftRight_eq_div_pow]
    norm_num
    omega
  rw [h1, h2]

theorem c8_segment_layout_witness :
    ([1, 2, 3] : List Nat).length + ([9, 9] : List Nat).length + 2 < 65536 ∧
    assembleSegment [1, 2, 3] [9, 9] (List.range 25)
      = segment_format_spec [1, 2, 3] [9, 9] (List.range 25) :=
  ⟨by decide, c8_segment_layout [1, 2, 3] [9, 9] (List.range 25) (by decide)⟩

/-- C4: for every frame whose height is not a multiple of 16 (and whose chroma
plane is non-empty, i.e. `2 ≤ height`), over all rows supplied by the band
loop: a luma row pointer for a row index below `height` is the exact row
pointer, one at or beyond `height` is clamped to the last valid luma row
`Y + (height-1)*stride`, and likewise for the chroma planes with
`height/2` rows of `stride/2` bytes; no row pointer ever exceeds the start
of the last valid row of its plane. -/
theorem c4_row_clamping (mem : Nat) (info : StreamInfo)
    (hmul : ¬ (16 ∣ info.height)) (hh : 2 ≤ info.height) :
    (∀ r, r < 16 * numBands info.height →
       (r < info.height → y_row mem info r = mem + r * info.stride)
     ∧ (info.height ≤ r →
          y_row mem info r = mem + (info.height - 1) * info.stride)
     ∧ y_row mem info r ≤ mem + (info.height - 1) * info.stride)
  ∧ (∀ c, c < 8 * numBands info.height →
       (c < info.height / 2 →
          u_row mem info c = U_base mem info + c * stride2 info
        ∧ v_row mem info c = V_base mem info + c * stride2 info)
     ∧ (info.height / 2 ≤ c →
          u_row mem info c = U_base mem info + (info.height / 2 - 1) * stride2 info
        ∧ v_row mem info c = V_base mem info + (info.height / 2 - 1) * stride2 info)
     ∧ u_row mem info c ≤ U_base mem info + (info.height / 2 - 1) * stride2 info
     ∧ v_row mem info c ≤ V_base mem info + (info.height / 2 - 1) * stride2 info) := by
  have h1 : 1 ≤ info.height := by omega
  have hc1 : 1 ≤ info.height / 2 := by omega
  constructor
  · intro r _
    refine ⟨?_, ?_, ?_⟩
    · intro hr
      unfold y_row Y_base
      rw [Y_max_eq mem info h1]
      exact min_eq_left
        (Nat.add_le_add_left (Nat.mul_le_mul (by omega) (Nat.le_refl _)) mem)
    · intro hr
      unfold y_row Y_base
      rw [Y_max_eq mem info h1]
      exact min_eq_right
        (Nat.add_le_add_left (Nat.mul_le_mul (by omega) (Nat.le_refl _)) mem)
    · unfold y_row
      rw [← Y_max_eq mem info h1]
      exact min_le_right _ _
  · intro c _
    refine ⟨fun hcv => ⟨?_, ?_⟩, fun hcv => ⟨?_, ?_⟩, ?_, ?_⟩
    · unfold u_row
      rw [U_max_eq mem info hc1]
      exact min_eq_left
        (Nat.add_le_add_left (Nat.mul_le_mul (by omega) (Nat.le_refl _)) _)
    · unfold v_row
      rw [V_max_eq mem info hc1]
      exact min_eq_left
        (Nat.add_le_add_left (Nat.mul_le_mul (by omega) (Nat.le_refl _)) _)
    · unfold u_row
      rw [U_max_eq mem info hc1]
      exact min_eq_right
        (Nat.add_le_add_left (Nat.mul_le_mul (by omega) (Nat.le_refl _)) _)
    · unfold v_row
      rw [V_max_eq mem info hc1]
      exact min_eq_right
        (Nat.add_le_add_left (Nat.mul_le_mul (by omega) (Nat.le_refl _)) _)
    · unfold u_row
      rw [← U_max_eq mem info hc1]
      exact min_le_right _ _
    · unfold v_row
      rw [← V_max_eq mem info hc1]
      exact min_le_right _ _

/-- A fuzzed geometry with `height = 17` (the spec's own example): width 32,
height 17, stride 64. -/
def info17 : StreamInfo := { width := 32, height := 17, stride := 64 }

theorem c4_row_clamping_witness :
    (¬ (16 ∣ info17.height)) ∧ 2 ≤ info17.height ∧
    y_row 0 info17 20 = 0 + (info17.height - 1) * info17.stride ∧
    u_row 0 info17 9 = U_base 0 info17 + (info17.height / 2 - 1) * stride2 info17 := by
  refine ⟨by decide, by decide, ?_, ?_⟩
  · exact ((c4_row_clamping 0 info17 (by decide) (by decide)).1 20 (by decide)).2.1
      (by decide)
  · exact (((c4_row_clamping 0 info17 (by decide) (by decide)).2 9 (by decide)).2.1
      (by decide)).1

/-! ## Metadata embedder (create_exif_data, jpeg_encoder.cpp lines 127-256)

Gains are carried as exact rationals standing for the C `float` values.
The conversion performed by passing `100 * gain` (a `float`) for the
`ExifShort` parameter of `exif_set_short` is C's float-to-integer
conversion, which truncates toward zero. -/

/-- The per-frame capture metadata fields read by `create_exif_data`
(`metadata.contains` / `metadata.get` on the `libcamera::ControlList`):
each is absent or present. -/
structure Metadata where
  exposureTime : Option Int
  analogueGain : Option ℚ
  digitalGain : Option ℚ
deriving DecidableEq, Repr

/-- C's float-to-integer conversion: truncation toward zero. -/
def truncTowardZero (q : ℚ) : Int :=
  if 0 ≤ q then ⌊q⌋ else -⌊-q⌋

/-- The structured metadata block built by `create_exif_data` (lines 127-256).
`make`, `model`, `software` and `dateTime` are the four fixed tags
(lines 144-157).  `exposureTag` is the `EXIF_TAG_EXPOSURE_TIME` rational
`(exposure_time, 1000000)`, present exactly when the metadata contains
`ExposureTime` (lines 160-168).  `isoTag` is the `EXIF_TAG_ISO_SPEED_RATINGS`
value, present exactly when the metadata contains `AnalogueGain`
(lines 169-179).  `thumb` is the embedded thumbnail and `thumbAttempts`
counts thumbnail compression attempts: both the thumbnail block
(lines 189-238) and the command-line tag block (lines 182-187) are
commented out in this source, so no thumbnail is ever attempted. -/
structure ExifBlock where
  make : String
  model : String
  software : String
  dateTime : String
  exposureTag : Option (Int × Nat)
  isoTag : Option Int
  thumb : Option (List Nat)
  thumbAttempts : Nat
deriving DecidableEq, Repr

/-- Shallow embedding of `create_exif_data` (lines 127-256).  `cam_name` is
the camera identity string (the caller at line 309 passes
"test camera name"), `time_string` the formatted wall-clock time, and
`thumb_quality` the `options->thumb_quality` configuration value, which the
surviving (non-commented) code never reads. -/
def create_exif_data (cam_name : String) (time_string : String)
    (thumb_quality : Nat) (metadata : Metadata) : ExifBlock :=
  { make := "Raspberry Pi"
    model := cam_name
    software := "libcamera-still"
    dateTime := time_string
    exposureTag := metadata.exposureTime.map (fun t => (t, 1000000))
    isoTag := metadata.analogueGain.map
      (fun ag => truncTowardZero (100 * (ag * metadata.digitalGain.getD 1)))
    thumb := none
    thumbAttempts := 0 }

/-- Fixed example metadata with analogue gain present and digital gain absent. -/
def mdAgOnly : Metadata :=
  { exposureTime := none, analogueGain := some 2, digitalGain := none }

/-- C5 counterexample: the claim says the ISO-equivalent tag is emitted
*exactly when both gains are present*.  On a frame whose metadata has
`AnalogueGain = 2.0` but no `DigitalGain`, `create_exif_data` still emits
the tag (with digital gain defaulted to 1.0, lines 172-174), so the
emission condition of the claim is false at this concrete input. -/
theorem c5_iso_without_digital_gain :
    ¬ (((create_exif_data "test camera name" "t" 0 mdAgOnly).isoTag.isSome = true)
        ↔ (mdAgOnly.analogueGain.isSome = true ∧ mdAgOnly.digitalGain.isSome = true)) := by
  decide

/-- C5 (amended): the ISO-equivalent tag is emitted exactly when analogue
gain is present; digital gain defaults to 1.0 when absent; the emitted value
is `100 * analog_gain * digital_gain` truncated toward zero (the spec's
example `analog_gain = 2.0, digital_gain = 1.5` still yields 300). -/
theorem c5_iso_tag_rule (cam_name time_string : String) (tq : Nat) (md : Metadata) :
    ((create_exif_data cam_name time_string tq md).isoTag.isSome = true
        ↔ md.analogueGain.isSome = true)
    ∧ (∀ ag dg : ℚ, md.analogueGain = some ag → md.digitalGain = some dg →
        (create_exif_data cam_name time_string tq md).isoTag
          = some (truncTowardZero (100 * (ag * dg))))
    ∧ (∀ ag : ℚ, md.analogueGain = some ag → md.digitalGain = none →
        (create_exif_data cam_name time_string tq md).isoTag
          = some (truncTowardZero (100 * ag))) := by
  refine ⟨?_, ?_, ?_⟩
  · cases h : md.analogueGain <;> simp [create_exif_data, h]
  · intro ag dg hag hdg
    simp [create_exif_data, hag, hdg]
  · intro ag hag hdg
    simp [create_exif_data, hag, hdg]

/-- Fixed example metadata realising the spec's round-trip example. -/
def mdBothGains : Metadata :=
  { exposureTime := none, analogueGain := some 2, digitalGain := some (3 / 2) }

theorem c5_iso_tag_rule_witness :
    mdBothGains.analogueGain = some 2 ∧ mdBothGains.digitalGain = some (3 / 2) ∧
    (create_exif_data "test camera name" "t" 0 mdBothGains).isoTag
      = some (truncTowardZero (100 * ((2 : ℚ) * (3 / 2)))) ∧
    truncTowardZero (100 * ((2 : ℚ) * (3 / 2))) = 300 :=
  ⟨rfl, rfl,
    (c5_iso_tag_rule "test camera name" "t" 0 mdBothGains).2.1 2 (3 / 2) rfl rfl,
    by norm_num [truncTowardZero]⟩

/-- C6: a metadata-dependent tag appears in the block only if its source
metadata is present: the exposure-time tag is present exactly when
`ExposureTime` is, the ISO tag exactly when `AnalogueGain` is, and an absent
source field yields an omitted tag (`none`), never a zero-filled one. -/
theorem c6_absent_tags_omitted (cam_name time_string : String) (tq : Nat)
    (md : Metadata) :
    ((create_exif_data cam_name time_string tq md).exposureTag.isSome = true
        ↔ md.exposureTime.isSome = true)
    ∧ ((create_exif_data cam_name time_string tq md).isoTag.isSome = true
        ↔ md.analogueGain.isSome = true)
    ∧ (md.exposureTime = none →
        (create_exif_data cam_name time_string tq md).exposureTag = none)
    ∧ (md.analogueGain = none →
        (create_exif_data cam_name time_string tq md).isoTag = none)
    ∧ (∀ t : Int, md.exposureTime = some t →
        (create_exif_data cam_name time_string tq md).exposureTag
          = some (t, 1000000)) := by
  refine ⟨?_, ?_, ?_, ?_, ?_⟩
  · cases h : md.exposureTime <;> simp [create_exif_data, h]
  · cases h : md.analogueGain <;> simp [create_exif_data, h]
  · intro h; simp [create_exif_data, h]
  · intro h; simp [create_exif_data, h]
  · intro t h; simp [create_exif_data, h]

/-- Fixed example metadata with every optional field absent. -/
def mdEmpty : Metadata :=
  { exposureTime := none, analogueGain := none, digitalGain := none }

theorem c6_absent_tags_omitted_witness :
    mdEmpty.exposureTime = none ∧
    (create_exif_data "test camera name" "t" 0 mdEmpty).exposureTag = none ∧
    (create_exif_data "test camera name" "t" 0 mdEmpty).isoTag = none :=
  ⟨rfl,
    (c6_absent_tags_omitted "test camera name" "t" 0 mdEmpty).2.2.1 rfl,
    (c6_absent_tags_omitted "test camera name" "t" 0 mdEmpty).2.2.2.1 rfl⟩

/-- Fixed example metadata with all fields present. -/
def mdFull : Metadata :=
  { exposureTime := some 5000, analogueGain := some 2, digitalGain := some 1 }

/-- C7 counterexample: with thumbnailing enabled (`thumb_quality = 50`) the
embedder performs zero thumbnail compression attempts and embeds no
thumbnail: the whole thumbnail path, including the descending-quality retry
loop and the size check, is commented out (lines 189-238), so the
retry-then-fail-fatally behaviour the claim describes does not exist. -/
theorem c7_no_thumbnail_attempts :
    (create_exif_data "test camera name" "t" 50 mdFull).thumbAttempts = 0
    ∧ (create_exif_data "test camera name" "t" 50 mdFull).thumb = none := by
  decide

/-- C7 (amended): thumbnailing is entirely disabled in this source: for every
camera name, time string, configured thumbnail quality and metadata, the
embedder makes no thumbnail attempt and emits no thumbnail, so neither the
descending-quality retry nor a `ThumbnailTooLarge` failure can occur. -/
theorem c7_thumbnailing_disabled (cam_name time_string : String) (tq : Nat)
    (md : Metadata) :
    (create_exif_data cam_name time_string tq md).thumb = none
    ∧ (create_exif_data cam_name time_string tq md).thumbAttempts = 0 :=
  ⟨rfl, rfl⟩

/-! ## The pipeline state machine

Shallow embedding of the concurrent behaviour of `JpegEncoder`: the
submission path `EncodeBuffer` (lines 47-53), the worker loop
`encodeThread` (lines 258-346), the reassembly loop `outputThread`
(lines 348-391) and the shutdown sequence of the destructor (lines 36-45).
Frames are identified by their sequence index.  Each mutex-protected
critical section of the source is one atomic step; the steps of the
different threads interleave arbitrarily in a run. -/

/-- Externally visible actions, in the order they happen during a run:
`compressDone i` marks `encodeJPEG` returning for frame `i` (after which the
raw input buffer is no longer read), `release` is a call of
`input_done_callback_(nullptr)` (line 385), and `emit i fin` is a call of
`output_ready_callback_(mem, bytes, ts, fin)` for frame `i` (line 387). -/
inductive Act where
  | compressDone (i : Nat)
  | release
  | emit (i : Nat) (fin : Bool)
deriving DecidableEq, Repr

/-- Pipeline state.  `index_` is the `JpegEncoder::index_` counter,
`encode_queue` the shared submission FIFO (holding sequence indices),
`holding w` the frame worker `w` has dequeued and is currently encoding,
`output_queue w` worker `w`'s private output queue, `workerDone w` whether
worker `w`'s thread has returned, `delivered` the list of
(sequence index, final-segment flag) pairs handed to the sink in order,
`outIndex` the `index` counter of `outputThread`, `abortEncode` /
`abortOutput` the two abort flags, `outputDone` whether `outputThread` has
returned, `assigned` the sequence indices handed out by `EncodeBuffer` in
submission order, and `log` the action log. -/
structure St where
  index_ : Nat
  encode_queue : List Nat
  holding : List (Option Nat)
  output_queue : List (List Nat)
  workerDone : List Bool
  delivered : List (Nat × Bool)
  outIndex : Nat
  abortEncode : Bool
  abortOutput : Bool
  outputDone : Bool
  assigned : List Nat
  log : List Act
deriving DecidableEq, Repr

/-- Interleaving events: one per critical section of one thread. -/
inductive Ev where
  | submit
  | take (w : Nat)
  | push (w : Nat)
  | wexit (w : Nat)
  | deliver
  | stopEncode
  | stopOutput
  | oexit
deriving DecidableEq, Repr

/-- The state right after the constructor (lines 26-34) with `n` encode
worker threads (`NUM_ENC_THREADS`). -/
def init (n : Nat) : St :=
  { index_ := 0
    encode_queue := []
    holding := List.replicate n none
    output_queue := List.replicate n []
    workerDone := List.replicate n false
    delivered := []
    outIndex := 0
    abortEncode := false
    abortOutput := false
    outputDone := false
    assigned := []
    log := [] }

/-- The scan of `outputThread` (lines 366-377): find the first queue whose
front item has index `target`, pop it, and return the updated queue list;
`none` when no queue front matches. -/
def popMatch (target : Nat) : List (List Nat) → Option (List (List Nat))
  | [] => none
  | q :: qs =>
    match q with
    | i :: rest =>
      if i = target then some (rest :: qs)
      else (popMatch target qs).map (fun qs2 => (i :: rest) :: qs2)
    | [] => (popMatch target qs).map (fun qs2 => ([] : List Nat) :: qs2)

/-- One atomic step of the pipeline.  Guards mirror the source:

* `submit` — `EncodeBuffer` (lines 47-53): unconditionally assigns
  `index_++` and appends to the shared FIFO.  There is no closed-queue
  check in the source.
* `take w` — worker `w` pops the front of the shared FIFO (lines 286-291);
  only possible while the worker runs and holds nothing.
* `push w` — worker `w` finishes `encodeJPEG` + `create_exif_data` +
  segment assembly for its held frame and pushes the output item onto its
  own queue (lines 297-344); the raw buffer is last read inside
  `encodeJPEG`, so `compressDone` is logged here.
* `wexit w` — the worker observes `abortEncode_` with an empty queue and
  returns (lines 278-285).
* `deliver` — `outputThread` finds the queue whose front has index
  `index`, pops it, calls `input_done_callback_(nullptr)` and then
  `output_ready_callback_(..., true)`, and increments `index`
  (lines 366-389).
* `stopEncode` — the destructor sets `abortEncode_` (line 38).
* `stopOutput` — the destructor sets `abortOutput_` (line 41), which it
  only reaches after joining every worker thread (lines 39-40).
* `oexit` — `outputThread` observes `abortOutput_` with every private
  queue empty and returns (lines 365-379). -/
def step (s : St) : Ev → Option St
  | Ev.submit =>
    some { s with
      index_ := s.index_ + 1
      encode_queue := s.encode_queue ++ [s.index_]
      assigned := s.assigned ++ [s.index_] }
  | Ev.take w =>
    match s.workerDone[w]?, s.holding[w]?, s.encode_queue with
    | some false, some none, i :: rest =>
      some { s with
        encode_queue := rest
        holding := s.holding.set w (some i) }
    | _, _, _ => none
  | Ev.push w =>
    match s.holding[w]?, s.output_queue[w]? with
    | some (some i), some q =>
      some { s with
        holding := s.holding.set w none
        output_queue := s.output_queue.set w (q ++ [i])
        log := s.log ++ [Act.compressDone i] }
    | _, _ => none
  | Ev.wexit w =>
    match s.workerDone[w]?, s.holding[w]? with
    | some false, some none =>
      if s.abortEncode = true ∧ s.encode_queue = [] then
        some { s with workerDone := s.workerDone.set w true }
      else none
    | _, _ => none
  | Ev.deliver =>
    if s.outputDone = true then none
    else
      match popMatch s.outIndex s.output_queue with
      | some qs2 =>
        some { s with
          output_queue := qs2
          delivered := s.delivered ++ [(s.outIndex, true)]
          outIndex := s.outIndex + 1
          log := s.log ++ [Act.release, Act.emit s.outIndex true] }
      | none => none
  | Ev.stopEncode => some { s with abortEncode := true }
  | Ev.stopOutput =>
    if s.abortEncode = true ∧ s.workerDone.all (fun b => b) = true then
      some { s with abortOutput := true }
    else none
  | Ev.oexit =>
    if s.outputDone = false ∧ s.abortOutput = true
        ∧ s.output_queue.all (fun q => q.isEmpty) = true then
      some { s with outputDone := true }
    else none

/-- Run a list of events from a state; `none` when some event's guard fails. -/
def run (s : St) : List Ev → Option St
  | [] => some s
  | e :: es =>
    match step s e with
    | some s2 => run s2 es
    | none => none

/-- `okTrace b es` holds when, starting from a state whose `abortEncode`
flag is `b`, no `submit` happens at a point where shutdown has been
initiated.  This is the usage discipline of a well-formed run: the owner
thread that calls `EncodeBuffer` is the same one that later runs the
destructor, so no submission can follow the start of destruction. -/
def okTrace : Bool → List Ev → Bool
  | _, [] => true
  | b, Ev.submit :: es => !b && okTrace b es
  | _, Ev.stopEncode :: es => okTrace true es
  | b, _ :: es => okTrace b es

/-- Number of `submit` events in a trace: the number `N` of frames submitted. -/
def countSubmit : List Ev → Nat
  | [] => 0
  | Ev.submit :: es => countSubmit es + 1
  | _ :: es => countSubmit es

def isRelease : Act → Bool
  | Act.release => true
  | _ => false

def isEmit : Act → Bool
  | Act.emit _ _ => true
  | _ => false

def isCompressDone : Act → Bool
  | Act.compressDone _ => true
  | _ => false

/-- Number of `input_done_callback_` (buffer release) calls in a log. -/
def countRelease (l : List Act) : Nat := l.countP isRelease

/-- Number of `output_ready_callback_` (sink delivery) calls in a log. -/
def countEmit (l : List Act) : Nat := l.countP isEmit

/-- Number of completed compressions in a log. -/
def countCompress (l : List Act) : Nat := l.countP isCompressDone

/-- Sequence indices currently inside the pipeline: the shared FIFO, the
frames being encoded, and the private output queues. -/
def pending (s : St) : List Nat :=
  s.encode_queue ++ s.holding.filterMap (fun h => h) ++ s.output_queue.flatten

/-! ### List helpers -/

theorem mem_set_self {α : Type} {l : List α} {w : Nat} (hw : w < l.length)
    (y : α) : y ∈ l.set w y := by
  induction l generalizing w with
  | nil => simp at hw
  | cons a t ih =>
    cases w with
    | zero => simp
    | succ w =>
      simp only [List.set]
      exact List.mem_cons_of_mem a (ih (by simpa using hw))

theorem mem_set_of_mem {α : Type} {l : List α} {w : Nat} {x z : α} (y : α)
    (hg : l[w]? = some x) (hz : z ∈ l) : z = x ∨ z ∈ l.set w y := by
  induction l generalizing w with
  | nil => simp at hz
  | cons a t ih =>
    cases w with
    | zero =>
      simp only [List.getElem?_cons_zero] at hg
      rcases List.mem_cons.mp hz with rfl | hzt
      · exact Or.inl (Option.some.inj hg)
      · exact Or.inr (by simp [List.set, hzt])
    | succ w =>
      simp only [List.getElem?_cons_succ] at hg
      rcases List.mem_cons.mp hz with rfl | hzt
      · exact Or.inr (by simp [List.set])
      · rcases ih hg hzt with h | h
        · exact Or.inl h
        · exact Or.inr (by simp [List.set, h])

theorem mem_filterMap_id {l : List (Option Nat)} {a : Nat} :
    a ∈ l.filterMap (fun h => h) ↔ some a ∈ l := by
  rw [List.mem_filterMap]
  constructor
  · rintro ⟨x, hx, rfl⟩; exact hx
  · intro h; exact ⟨some a, h, rfl⟩

/-! ### popMatch lemmas -/

theorem popMatch_sub {t : Nat} {qs qs2 : List (List Nat)}
    (h : popMatch t qs = some qs2) : ∀ z ∈ qs2.flatten, z ∈ qs.flatten := by
  induction qs generalizing qs2 with
  | nil => simp [popMatch] at h
  | cons q rest ih =>
    match q with
    | [] =>
      simp only [popMatch] at h
      rcases Option.map_eq_some'.mp h with ⟨qs2', hpop, rfl⟩
      intro z hz
      simp only [List.flatten_cons] at hz ⊢
      exact List.mem_append.mpr (Or.inr (ih hpop z (by simpa using hz)))
    | i :: r =>
      simp only [popMatch] at h
      by_cases hit : i = t
      · simp only [hit, if_pos rfl] at h
        obtain rfl := Option.some.inj h
        intro z hz
        simp only [List.flatten_cons] at hz ⊢
        rcases List.mem_append.mp hz with hz | hz
        · exact List.mem_append.mpr (Or.inl (List.mem_cons_of_mem _ hz))
        · exact List.mem_append.mpr (Or.inr hz)
      · rw [if_neg hit] at h
        rcases Option.map_eq_some'.mp h with ⟨qs2', hpop, rfl⟩
        intro z hz
        simp only [List.flatten_cons] at hz ⊢
        rcases List.mem_append.mp hz with hz | hz
        · exact List.mem_append.mpr (Or.inl hz)
        · exact List.mem_append.mpr (Or.inr (ih hpop z hz))

theorem popMatch_cover {t : Nat} {qs qs2 : List (List Nat)}
    (h : popMatch t qs = some qs2) :
    ∀ z ∈ qs.flatten, z = t ∨ z ∈ qs2.flatten := by
  induction qs generalizing qs2 with
  | nil => simp [popMatch] at h
  | cons q rest ih =>
    match q with
    | [] =>
      simp only [popMatch] at h
      rcases Option.map_eq_some'.mp h with ⟨qs2', hpop, rfl⟩
      intro z hz
      simp only [List.flatten_cons] at hz ⊢
      rcases List.mem_append.mp hz with hz | hz
      · simp at hz
      · rcases ih hpop z hz with h' | h'
        · exact Or.inl h'
        · exact Or.inr (List.mem_append.mpr (Or.inr h'))
    | i :: r =>
      simp only [popMatch] at h
      by_cases hit : i = t
      · simp only [hit, if_pos rfl] at h
        obtain rfl := Option.some.inj h
        intro z hz
        simp only [List.flatten_cons] at hz ⊢
        rcases List.mem_append.mp hz with hz | hz
        · rcases List.mem_cons.mp hz with rfl | hz
          · exact Or.inl hit
          · exact Or.inr (List.mem_append.mpr (Or.inl hz))
        · exact Or.inr (List.mem_append.mpr (Or.inr hz))
      · rw [if_neg hit] at h
        rcases Option.map_eq_some'.mp h with ⟨qs2', hpop, rfl⟩
        intro z hz
        simp only [List.flatten_cons] at hz ⊢
        rcases List.mem_append.mp hz with hz | hz
        · exact Or.inr (List.mem_append.mpr (Or.inl hz))
        · rcases ih hpop z hz with h' | h'
          · exact Or.inl h'
          · exact Or.inr (List.mem_append.mpr (Or.inr h'))

theorem lt_of_getElem? {α : Type} {l : List α} {w : Nat} {x : α}
    (h : l[w]? = some x) : w < l.length := by
  rcases List.getElem?_eq_some.mp h with ⟨h1, _⟩
  exact h1

theorem getElem?_some_of_lt {α : Type} {l : List α} {w : Nat} (h : w < l.length) :
    ∃ x, l[w]? = some x :=
  ⟨_, List.getElem?_eq_getElem h⟩

theorem popMatch_length {t : Nat} {qs qs2 : List (List Nat)}
    (h : popMatch t qs = some qs2) : qs2.length = qs.length := by
  induction qs generalizing qs2 with
  | nil => simp [popMatch] at h
  | cons q rest ih =>
    match q with
    | [] =>
      simp only [popMatch] at h
      rcases Option.map_eq_some'.mp h with ⟨qs2', hpop, rfl⟩
      simp [ih hpop]
    | i :: r =>
      simp only [popMatch] at h
      by_cases hit : i = t
      · simp only [hit, if_pos rfl] at h
        obtain rfl := Option.some.inj h
        simp
      · rw [if_neg hit] at h
        rcases Option.map_eq_some'.mp h with ⟨qs2', hpop, rfl⟩
        simp [ih hpop]

theorem popMatch_target_mem {t : Nat} {qs qs2 : List (List Nat)}
    (h : popMatch t qs = some qs2) : t ∈ qs.flatten := by
  induction qs generalizing qs2 with
  | nil => simp [popMatch] at h
  | cons q rest ih =>
    match q with
    | [] =>
      simp only [popMatch] at h
      rcases Option.map_eq_some'.mp h with ⟨qs2', hpop, rfl⟩
      simp only [List.flatten_cons, List.mem_append]
      exact Or.inr (ih hpop)
    | i :: r =>
      simp only [popMatch] at h
      by_cases hit : i = t
      · subst hit
        simp
      · rw [if_neg hit] at h
        rcases Option.map_eq_some'.mp h with ⟨qs2', hpop, rfl⟩
        simp only [List.flatten_cons, List.mem_append]
        exact Or.inr (ih hpop)

/-! ### Inversion of `step` -/

theorem step_cases {s s2 : St} {e : Ev} (hs : step s e = some s2) :
    (e = Ev.submit ∧ s2 = { s with
        index_ := s.index_ + 1
        encode_queue := s.encode_queue ++ [s.index_]
        assigned := s.assigned ++ [s.index_] })
  ∨ (∃ w i rest, e = Ev.take w ∧ s.workerDone[w]? = some false
      ∧ s.holding[w]? = some none ∧ s.encode_queue = i :: rest
      ∧ s2 = { s with
          encode_queue := rest
          holding := s.holding.set w (some i) })
  ∨ (∃ w i q, e = Ev.push w ∧ s.holding[w]? = some (some i)
      ∧ s.output_queue[w]? = some q
      ∧ s2 = { s with
          holding := s.holding.set w none
          output_queue := s.output_queue.set w (q ++ [i])
          log := s.log ++ [Act.compressDone i] })
  ∨ (∃ w, e = Ev.wexit w ∧ s.workerDone[w]? = some false
      ∧ s.holding[w]? = some none ∧ s.abortEncode = true
      ∧ s.encode_queue = []
      ∧ s2 = { s with workerDone := s.workerDone.set w true })
  ∨ (∃ qs2, e = Ev.deliver ∧ s.outputDone = false
      ∧ popMatch s.outIndex s.output_queue = some qs2
      ∧ s2 = { s with
          output_queue := qs2
          delivered := s.delivered ++ [(s.outIndex, true)]
          outIndex := s.outIndex + 1
          log := s.log ++ [Act.release, Act.emit s.outIndex true] })
  ∨ (e = Ev.stopEncode ∧ s2 = { s with abortEncode := true })
  ∨ (e = Ev.stopOutput ∧ s.abortEncode = true
      ∧ s.workerDone.all (fun b => b) = true
      ∧ s2 = { s with abortOutput := true })
  ∨ (e = Ev.oexit ∧ s.outputDone = false ∧ s.abortOutput = true
      ∧ s.output_queue.all (fun q => q.isEmpty) = true
      ∧ s2 = { s with outputDone := true }) := by
  cases e with
  | submit =>
    exact Or.inl ⟨rfl, (Option.some.inj hs).symm⟩
  | take w =>
    cases hwd : s.workerDone[w]? with
    | none => simp [step, hwd] at hs
    | some b =>
      cases b with
      | true => simp [step, hwd] at hs
      | false =>
        cases hh : s.holding[w]? with
        | none => simp [step, hwd, hh] at hs
        | some ho =>
          cases ho with
          | some i => simp [step, hwd, hh] at hs
          | none =>
            cases hq : s.encode_queue with
            | nil => simp [step, hwd, hh, hq] at hs
            | cons i rest =>
              simp only [step, hwd, hh, hq] at hs
              exact Or.inr (Or.inl ⟨w, i, rest, rfl, hwd, hh, rfl,
                (Option.some.inj hs).symm⟩)
  | push w =>
    cases hh : s.holding[w]? with
    | none => simp [step, hh] at hs
    | some ho =>
      cases ho with
      | none => simp [step, hh] at hs
      | some i =>
        cases hoq : s.output_queue[w]? with
        | none => simp [step, hh, hoq] at hs
        | some q =>
          simp only [step, hh, hoq] at hs
          exact Or.inr (Or.inr (Or.inl ⟨w, i, q, rfl, hh, hoq,
            (Option.some.inj hs).symm⟩))
  | wexit w =>
    cases hwd : s.workerDone[w]? with
    | none => simp [step, hwd] at hs
    | some b =>
      cases b with
      | true => simp [step, hwd] at hs
      | false =>
        cases hh : s.holding[w]? with
        | none => simp [step, hwd, hh] at hs
        | some ho =>
          cases ho with
          | some i => simp [step, hwd, hh] at hs
          | none =>
            simp only [step, hwd, hh] at hs
            split at hs
            case isTrue hg =>
              exact Or.inr (Or.inr (Or.inr (Or.inl ⟨w, rfl, hwd, hh, hg.1, hg.2,
                (Option.some.inj hs).symm⟩)))
            case isFalse => simp at hs
  | deliver =>
    cases hod : s.outputDone with
    | true => simp [step, hod] at hs
    | false =>
      cases hpm : popMatch s.outIndex s.output_queue with
      | none => simp [step, hod, hpm] at hs
      | some qs2 =>
        simp only [step, hod, hpm, Bool.false_eq_true, if_false] at hs
        exact Or.inr (Or.inr (Or.inr (Or.inr (Or.inl ⟨qs2, rfl, rfl, rfl,
          (Option.some.inj hs).symm⟩))))
  | stopEncode =>
    exact Or.inr (Or.inr (Or.inr (Or.inr (Or.inr (Or.inl ⟨rfl,
      (Option.some.inj hs).symm⟩)))))
  | stopOutput =>
    simp only [step] at hs
    split at hs
    case isTrue hg =>
      exact Or.inr (Or.inr (Or.inr (Or.inr (Or.inr (Or.inr (Or.inl
        ⟨rfl, hg.1, hg.2, (Option.some.inj hs).symm⟩))))))
    case isFalse => simp at hs
  | oexit =>
    simp only [step] at hs
    split at hs
    case isTrue hg =>
      exact Or.inr (Or.inr (Or.inr (Or.inr (Or.inr (Or.inr (Or.inr
        ⟨rfl, hg.1, hg.2.1, hg.2.2, (Option.some.inj hs).symm⟩))))))
    case isFalse => simp at hs

/-! ### The pipeline invariant -/

theorem mem_pending {s : St} {n : Nat} :
    n ∈ pending s ↔
      n ∈ s.encode_queue ∨ some n ∈ s.holding ∨ n ∈ s.output_queue.flatten := by
  simp [pending, List.mem_append, mem_filterMap_id, or_assoc]

/-- Invariant of every reachable pipeline state (for runs whose submissions
all precede shutdown): deliveries so far are exactly `0 .. outIndex-1` in
order; every index inside the pipeline was assigned and every assigned index
is delivered or inside; the shutdown flags are ordered (output aborted only
after every worker joined, output finished only after aborting with all
queues drained); a finished worker holds nothing, and once any worker has
exited the shared FIFO is and stays empty. -/
structure Inv (s : St) : Prop where
  len_h : s.holding.length = s.workerDone.length
  len_q : s.output_queue.length = s.workerDone.length
  a1 : s.delivered.map Prod.fst = List.range s.outIndex
  a2 : ∀ n ∈ pending s, n < s.index_
  a3 : ∀ n, n < s.index_ → n ∈ s.delivered.map Prod.fst ∨ n ∈ pending s
  a5 : s.outputDone = true → s.abortOutput = true
  a6 : s.abortOutput = true → ∀ b ∈ s.workerDone, b = true
  a7 : ∀ w : Nat, s.workerDone[w]? = some true → s.holding[w]? = some none
  a8 : ∀ w : Nat, s.workerDone[w]? = some true → s.encode_queue = []
  a9 : ∀ w : Nat, s.workerDone[w]? = some true → s.abortEncode = true
  a10 : s.outputDone = true → ∀ q ∈ s.output_queue, q = []
  a11 : s.outIndex ≤ s.index_

theorem init_inv (n : Nat) : Inv (init n) := by
  refine ⟨?_, ?_, ?_, ?_, ?_, ?_, ?_, ?_, ?_, ?_, ?_, ?_⟩
  · simp [init]
  · simp [init]
  · simp [init]
  · intro m hm
    simp [pending, init] at hm
  · intro m hm
    simp [init] at hm
  · intro h
    simp [init] at h
  · intro h
    simp [init] at h
  · intro w h
    have := List.eq_of_mem_replicate (List.getElem?_mem (by simpa [init] using h))
    simp at this
  · intro w h
    have := List.eq_of_mem_replicate (List.getElem?_mem (by simpa [init] using h))
    simp at this
  · intro w h
    have := List.eq_of_mem_replicate (List.getElem?_mem (by simpa [init] using h))
    simp at this
  · intro h
    simp [init] at h
  · simp [init]

theorem inv_submit {s : St} (hI : Inv s) (hab : s.abortEncode = false) :
    Inv { s with
      index_ := s.index_ + 1
      encode_queue := s.encode_queue ++ [s.index_]
      assigned := s.assigned ++ [s.index_] } := by
  refine ⟨hI.len_h, hI.len_q, hI.a1, ?_, ?_, hI.a5, hI.a6, hI.a7, ?_, hI.a9, hI.a10, ?_⟩
    <;> dsimp only
  · intro n hn
    rcases mem_pending.mp hn with h | h | h
    · rcases List.mem_append.mp h with h | h
      · have := hI.a2 n (mem_pending.mpr (Or.inl h))
        omega
      · simp at h
        omega
    · have := hI.a2 n (mem_pending.mpr (Or.inr (Or.inl h)))
      omega
    · have := hI.a2 n (mem_pending.mpr (Or.inr (Or.inr h)))
      omega
  · intro n hn
    rcases Nat.lt_succ_iff_lt_or_eq.mp hn with h | rfl
    · rcases hI.a3 n h with hD | hP
      · exact Or.inl hD
      · refine Or.inr (mem_pending.mpr ?_)
        rcases mem_pending.mp hP with h' | h' | h'
        · exact Or.inl (List.mem_append.mpr (Or.inl h'))
        · exact Or.inr (Or.inl h')
        · exact Or.inr (Or.inr h')
    · exact Or.inr (mem_pending.mpr (Or.inl (List.mem_append.mpr (Or.inr (by simp)))))
  · intro w h
    have h9 := hI.a9 w h
    rw [hab] at h9
    simp at h9
  · exact Nat.le_succ_of_le hI.a11

theorem inv_take {s : St} {w i : Nat} {rest : List Nat} (hI : Inv s)
    (hwd : s.workerDone[w]? = some false) (hh : s.holding[w]? = some none)
    (hq : s.encode_queue = i :: rest) :
    Inv { s with
      encode_queue := rest
      holding := s.holding.set w (some i) } := by
  refine ⟨?_, hI.len_q, hI.a1, ?_, ?_, hI.a5, hI.a6, ?_, ?_, hI.a9, hI.a10, hI.a11⟩
    <;> dsimp only
  · simp [List.length_set, hI.len_h]
  · intro n hn
    rcases mem_pending.mp hn with h | h | h
    · exact hI.a2 n (mem_pending.mpr (Or.inl (by rw [hq]; exact List.mem_cons_of_mem _ h)))
    · rcases List.mem_or_eq_of_mem_set h with h' | h'
      · exact hI.a2 n (mem_pending.mpr (Or.inr (Or.inl h')))
      · obtain rfl : n = i := by simpa using h'
        exact hI.a2 n (mem_pending.mpr (Or.inl (by rw [hq]; exact List.mem_cons_self _ _)))
    · exact hI.a2 n (mem_pending.mpr (Or.inr (Or.inr h)))
  · intro n hn
    rcases hI.a3 n hn with hD | hP
    · exact Or.inl hD
    · refine Or.inr (mem_pending.mpr ?_)
      rcases mem_pending.mp hP with h' | h' | h'
      · rw [hq] at h'
        rcases List.mem_cons.mp h' with rfl | h'
        · exact Or.inr (Or.inl (mem_set_self (lt_of_getElem? hh) (some n)))
        · exact Or.inl h'
      · rcases mem_set_of_mem (some i) hh h' with h'' | h''
        · simp at h''
        · exact Or.inr (Or.inl h'')
      · exact Or.inr (Or.inr h')
  · intro w2 h
    by_cases hww : w = w2
    · subst hww
      rw [hwd] at h
      simp at h
    · rw [List.getElem?_set_ne hww]
      exact hI.a7 w2 h
  · intro w2 h
    have := hI.a8 w2 h
    rw [hq] at this
    simp at this

theorem inv_push {s : St} {w i : Nat} {q : List Nat} (hI : Inv s)
    (hh : s.holding[w]? = some (some i)) (hoq : s.output_queue[w]? = some q) :
    Inv { s with
      holding := s.holding.set w none
      output_queue := s.output_queue.set w (q ++ [i])
      log := s.log ++ [Act.compressDone i] } := by
  refine ⟨?_, ?_, hI.a1, ?_, ?_, hI.a5, hI.a6, ?_, hI.a8, hI.a9, ?_, hI.a11⟩
    <;> dsimp only
  · simp [List.length_set, hI.len_h]
  · simp [List.length_set, hI.len_q]
  · intro n hn
    rcases mem_pending.mp hn with h | h | h
    · exact hI.a2 n (mem_pending.mpr (Or.inl h))
    · rcases List.mem_or_eq_of_mem_set h with h2 | h2
      · exact hI.a2 n (mem_pending.mpr (Or.inr (Or.inl h2)))
      · simp at h2
    · rcases List.mem_flatten.mp h with ⟨l, hl, hnl⟩
      rcases List.mem_or_eq_of_mem_set hl with h2 | h2
      · exact hI.a2 n
          (mem_pending.mpr (Or.inr (Or.inr (List.mem_flatten.mpr ⟨l, h2, hnl⟩))))
      · subst h2
        rcases List.mem_append.mp hnl with h3 | h3
        · exact hI.a2 n (mem_pending.mpr (Or.inr (Or.inr
            (List.mem_flatten.mpr ⟨q, List.getElem?_mem hoq, h3⟩))))
        · obtain rfl : n = i := by simpa using h3
          exact hI.a2 n (mem_pending.mpr (Or.inr (Or.inl (List.getElem?_mem hh))))
  · intro n hn
    rcases hI.a3 n hn with hD | hP
    · exact Or.inl hD
    · refine Or.inr (mem_pending.mpr ?_)
      rcases mem_pending.mp hP with h2 | h2 | h2
      · exact Or.inl h2
      · rcases mem_set_of_mem none hh h2 with h3 | h3
        · have h4 : n = i := by simpa using h3
          exact Or.inr (Or.inr (List.mem_flatten.mpr
            ⟨q ++ [i], mem_set_self (lt_of_getElem? hoq) _, by simp [h4]⟩))
        · exact Or.inr (Or.inl h3)
      · rcases List.mem_flatten.mp h2 with ⟨l, hl, hnl⟩
        rcases mem_set_of_mem (q ++ [i]) hoq hl with h3 | h3
        · rw [h3] at hnl
          exact Or.inr (Or.inr (List.mem_flatten.mpr
            ⟨q ++ [i], mem_set_self (lt_of_getElem? hoq) _,
              List.mem_append.mpr (Or.inl hnl)⟩))
        · exact Or.inr (Or.inr (List.mem_flatten.mpr ⟨l, h3, hnl⟩))
  · intro w2 h
    by_cases hww : w = w2
    · subst hww
      exact List.getElem?_set_self (lt_of_getElem? hh)
    · rw [List.getElem?_set_ne hww]
      exact hI.a7 w2 h
  · intro hod
    have habo := hI.a5 hod
    rcases getElem?_some_of_lt
        (show w < s.workerDone.length from hI.len_h ▸ lt_of_getElem? hh) with ⟨b, hb⟩
    have hbt := hI.a6 habo b (List.getElem?_mem hb)
    have h7 := hI.a7 w (by rw [hb, hbt])
    rw [hh] at h7
    simp at h7

theorem inv_wexit {s : St} {w : Nat} (hI : Inv s)
    (hwd : s.workerDone[w]? = some false) (hh : s.holding[w]? = some none)
    (habe : s.abortEncode = true) (hqe : s.encode_queue = []) :
    Inv { s with workerDone := s.workerDone.set w true } := by
  refine ⟨?_, ?_, hI.a1, hI.a2, hI.a3, hI.a5, ?_, ?_, ?_, ?_, hI.a10, hI.a11⟩
    <;> dsimp only
  · simp [List.length_set, hI.len_h]
  · simp [List.length_set, hI.len_q]
  · intro h b hb
    have := hI.a6 h false (List.getElem?_mem hwd)
    simp at this
  · intro w2 h
    by_cases hww : w = w2
    · subst hww
      exact hh
    · rw [List.getElem?_set_ne hww] at h
      exact hI.a7 w2 h
  · intro w2 h
    exact hqe
  · intro w2 h
    exact habe

theorem inv_deliver {s : St} {qs2 : List (List Nat)} (hI : Inv s)
    (hod : s.outputDone = false)
    (hpm : popMatch s.outIndex s.output_queue = some qs2) :
    Inv { s with
      output_queue := qs2
      delivered := s.delivered ++ [(s.outIndex, true)]
      outIndex := s.outIndex + 1
      log := s.log ++ [Act.release, Act.emit s.outIndex true] } := by
  refine ⟨hI.len_h, ?_, ?_, ?_, ?_, ?_, hI.a6, hI.a7, hI.a8, hI.a9, ?_, ?_⟩
    <;> dsimp only
  · rw [popMatch_length hpm]
    exact hI.len_q
  · simp [List.map_append, hI.a1, List.range_succ]
  · intro n hn
    rcases mem_pending.mp hn with h | h | h
    · exact hI.a2 n (mem_pending.mpr (Or.inl h))
    · exact hI.a2 n (mem_pending.mpr (Or.inr (Or.inl h)))
    · exact hI.a2 n (mem_pending.mpr (Or.inr (Or.inr (popMatch_sub hpm n h))))
  · intro n hn
    rcases hI.a3 n hn with hD | hP
    · exact Or.inl (by
        simp only [List.map_append]
        exact List.mem_append.mpr (Or.inl hD))
    · rcases mem_pending.mp hP with h2 | h2 | h2
      · exact Or.inr (mem_pending.mpr (Or.inl h2))
      · exact Or.inr (mem_pending.mpr (Or.inr (Or.inl h2)))
      · rcases popMatch_cover hpm n h2 with rfl | h3
        · exact Or.inl (by simp [List.map_append])
        · exact Or.inr (mem_pending.mpr (Or.inr (Or.inr h3)))
  · intro h
    exact absurd h (by simp [hod])
  · intro h
    exact absurd h (by simp [hod])
  · have hm : s.outIndex ∈ pending s :=
      mem_pending.mpr (Or.inr (Or.inr (popMatch_target_mem hpm)))
    have := hI.a2 _ hm
    omega

theorem inv_stopEncode {s : St} (hI : Inv s) :
    Inv { s with abortEncode := true } := by
  refine ⟨hI.len_h, hI.len_q, hI.a1, hI.a2, hI.a3, hI.a5, hI.a6, hI.a7, hI.a8, ?_,
    hI.a10, hI.a11⟩
  intro w h
  rfl

theorem inv_stopOutput {s : St} (hI : Inv s)
    (hall : s.workerDone.all (fun b => b) = true) :
    Inv { s with abortOutput := true } := by
  refine ⟨hI.len_h, hI.len_q, hI.a1, hI.a2, hI.a3, ?_, ?_, hI.a7, hI.a8, hI.a9,
    hI.a10, hI.a11⟩
  · intro h
    rfl
  · intro h b hb
    simpa using List.all_eq_true.mp hall b hb

theorem inv_oexit {s : St} (hI : Inv s) (habo : s.abortOutput = true)
    (hall : s.output_queue.all (fun q => q.isEmpty) = true) :
    Inv { s with outputDone := true } := by
  refine ⟨hI.len_h, hI.len_q, hI.a1, hI.a2, hI.a3, ?_, hI.a6, hI.a7, hI.a8, hI.a9,
    ?_, hI.a11⟩
  · intro h
    exact habo
  · intro h q hq
    simpa [List.isEmpty_iff] using List.all_eq_true.mp hall q hq

theorem inv_step {s s2 : St} {e : Ev} (hI : Inv s)
    (hs : step s e = some s2)
    (hsub : e = Ev.submit → s.abortEncode = false) : Inv s2 := by
  rcases step_cases hs with
      ⟨he, rfl⟩ | ⟨w, i, rest, he, hwd, hh, hq, rfl⟩ | ⟨w, i, q, he, hh, hoq, rfl⟩ |
      ⟨w, he, hwd, hh, habe, hqe, rfl⟩ | ⟨qs2, he, hod, hpm, rfl⟩ | ⟨he, rfl⟩ |
      ⟨he, habe, hall, rfl⟩ | ⟨he, hod, habo, hall, rfl⟩
  · exact inv_submit hI (hsub he)
  · exact inv_take hI hwd hh hq
  · exact inv_push hI hh hoq
  · exact inv_wexit hI hwd hh habe hqe
  · exact inv_deliver hI hod hpm
  · exact inv_stopEncode hI
  · exact inv_stopOutput hI hall
  · exact inv_oexit hI habo hall

theorem step_abortEncode {s s2 : St} {e : Ev} (hs : step s e = some s2) :
    s2.abortEncode = (if e = Ev.stopEncode then true else s.abortEncode) := by
  rcases step_cases hs with
      ⟨he, rfl⟩ | ⟨w, i, rest, he, hwd, hh, hq, rfl⟩ | ⟨w, i, q, he, hh, hoq, rfl⟩ |
      ⟨w, he, hwd, hh, habe, hqe, rfl⟩ | ⟨qs2, he, hod, hpm, rfl⟩ | ⟨he, rfl⟩ |
      ⟨he, habe, hall, rfl⟩ | ⟨he, hod, habo, hall, rfl⟩ <;> subst he <;> simp

theorem run_inv {es : List Ev} {s st : St} (hI : Inv s)
    (hok : okTrace s.abortEncode es = true) (hr : run s es = some st) : Inv st := by
  induction es generalizing s with
  | nil =>
    simp only [run] at hr
    exact (Option.some.inj hr) ▸ hI
  | cons e es ih =>
    simp only [run] at hr
    cases hs : step s e with
    | none =>
      rw [hs] at hr
      simp at hr
    | some s2 =>
      rw [hs] at hr
      cases e
      case submit =>
        simp only [okTrace, Bool.and_eq_true] at hok
        have hab : s.abortEncode = false := by
          rcases hok with ⟨h1, _⟩
          simpa using h1
        have hI2 := inv_step hI hs (fun _ => hab)
        have h2 : s2.abortEncode = s.abortEncode := by
          simpa using step_abortEncode hs
        exact ih hI2 (by rw [h2, hab]; rw [hab] at hok; exact hok.2) hr
      case stopEncode =>
        simp only [okTrace] at hok
        have hI2 := inv_step hI hs (fun h => nomatch h)
        have h2 : s2.abortEncode = true := by
          simpa using step_abortEncode hs
        exact ih hI2 (by rw [h2]; exact hok) hr
      all_goals
        simp only [okTrace] at hok
        have hI2 := inv_step hI hs (fun h => nomatch h)
        have h2 : s2.abortEncode = s.abortEncode := by
          simpa using step_abortEncode hs
        exact ih hI2 (by rw [h2]; exact hok) hr

theorem run_index {es : List Ev} {s st : St} (hr : run s es = some st) :
    st.index_ = s.index_ + countSubmit es := by
  induction es generalizing s with
  | nil =>
    simp only [run] at hr
    simp [← Option.some.inj hr, countSubmit]
  | cons e es ih =>
    simp only [run] at hr
    cases hs : step s e with
    | none =>
      rw [hs] at hr
      simp at hr
    | some s2 =>
      rw [hs] at hr
      have hi := ih hr
      rcases step_cases hs with
          ⟨he, rfl⟩ | ⟨w, i, rest, he, hwd, hh, hq, rfl⟩ | ⟨w, i, q, he, hh, hoq, rfl⟩ |
          ⟨w, he, hwd, hh, habe, hqe, rfl⟩ | ⟨qs2, he, hod, hpm, rfl⟩ | ⟨he, rfl⟩ |
          ⟨he, habe, hall, rfl⟩ | ⟨he, hod, habo, hall, rfl⟩ <;> subst he <;>
        simp only [countSubmit] at * <;> omega

theorem run_assigned {es : List Ev} {s st : St} (hr : run s es = some st)
    (h0 : s.assigned = List.range s.index_) : st.assigned = List.range st.index_ := by
  induction es generalizing s with
  | nil =>
    simp only [run] at hr
    exact (Option.some.inj hr) ▸ h0
  | cons e es ih =>
    simp only [run] at hr
    cases hs : step s e with
    | none =>
      rw [hs] at hr
      simp at hr
    | some s2 =>
      rw [hs] at hr
      refine ih hr ?_
      rcases step_cases hs with
          ⟨he, rfl⟩ | ⟨w, i, rest, he, hwd, hh, hq, rfl⟩ | ⟨w, i, q, he, hh, hoq, rfl⟩ |
          ⟨w, he, hwd, hh, habe, hqe, rfl⟩ | ⟨qs2, he, hod, hpm, rfl⟩ | ⟨he, rfl⟩ |
          ⟨he, habe, hall, rfl⟩ | ⟨he, hod, habo, hall, rfl⟩ <;>
        simp [h0, List.range_succ]

theorem run_delivered_flags {es : List Ev} {s st : St} (hr : run s es = some st)
    (h0 : ∀ p ∈ s.delivered, p.2 = true) : ∀ p ∈ st.delivered, p.2 = true := by
  induction es generalizing s with
  | nil =>
    simp only [run] at hr
    exact (Option.some.inj hr) ▸ h0
  | cons e es ih =>
    simp only [run] at hr
    cases hs : step s e with
    | none =>
      rw [hs] at hr
      simp at hr
    | some s2 =>
      rw [hs] at hr
      refine ih hr ?_
      rcases step_cases hs with
          ⟨he, rfl⟩ | ⟨w, i, rest, he, hwd, hh, hq, rfl⟩ | ⟨w, i, q, he, hh, hoq, rfl⟩ |
          ⟨w, he, hwd, hh, habe, hqe, rfl⟩ | ⟨qs2, he, hod, hpm, rfl⟩ | ⟨he, rfl⟩ |
          ⟨he, habe, hall, rfl⟩ | ⟨he, hod, habo, hall, rfl⟩ <;> dsimp only <;>
        try exact h0
      intro p hp
      rcases List.mem_append.mp hp with hp | hp
      · exact h0 p hp
      · simp only [List.mem_singleton] at hp
        rw [hp]

theorem countRelease_append (l1 l2 : List Act) :
    countRelease (l1 ++ l2) = countRelease l1 + countRelease l2 :=
  List.countP_append _ _ _

theorem countEmit_append (l1 l2 : List Act) :
    countEmit (l1 ++ l2) = countEmit l1 + countEmit l2 :=
  List.countP_append _ _ _

theorem countCompress_append (l1 l2 : List Act) :
    countCompress (l1 ++ l2) = countCompress l1 + countCompress l2 :=
  List.countP_append _ _ _

theorem run_release_counts {es : List Ev} {s st : St} (hr : run s es = some st)
    (h0 : countRelease s.log = s.delivered.length
      ∧ countEmit s.log = s.delivered.length) :
    countRelease st.log = st.delivered.length
      ∧ countEmit st.log = st.delivered.length := by
  induction es generalizing s with
  | nil =>
    simp only [run] at hr
    exact (Option.some.inj hr) ▸ h0
  | cons e es ih =>
    simp only [run] at hr
    cases hs : step s e with
    | none =>
      rw [hs] at hr
      simp at hr
    | some s2 =>
      rw [hs] at hr
      refine ih hr ?_
      rcases step_cases hs with
          ⟨he, rfl⟩ | ⟨w, i, rest, he, hwd, hh, hq, rfl⟩ | ⟨w, i, q, he, hh, hoq, rfl⟩ |
          ⟨w, he, hwd, hh, habe, hqe, rfl⟩ | ⟨qs2, he, hod, hpm, rfl⟩ | ⟨he, rfl⟩ |
          ⟨he, habe, hall, rfl⟩ | ⟨he, hod, habo, hall, rfl⟩ <;> dsimp only <;>
        try exact h0
      · have h1 := h0.1
        have h2 := h0.2
        refine ⟨?_, ?_⟩
        · rw [countRelease_append]
          have he : countRelease [Act.compressDone i] = 0 := rfl
          omega
        · rw [countEmit_append]
          have he : countEmit [Act.compressDone i] = 0 := rfl
          omega
      · have h1 := h0.1
        have h2 := h0.2
        refine ⟨?_, ?_⟩
        · rw [countRelease_append, List.length_append]
          have he : countRelease [Act.release, Act.emit s.outIndex true] = 1 := rfl
          simp only [List.length_singleton]
          omega
        · rw [countEmit_append, List.length_append]
          have he : countEmit [Act.release, Act.emit s.outIndex true] = 1 := rfl
          simp only [List.length_singleton]
          omega

theorem run_wlen {es : List Ev} {s st : St} (hr : run s es = some st) :
    st.workerDone.length = s.workerDone.length := by
  induction es generalizing s with
  | nil =>
    simp only [run] at hr
    exact (Option.some.inj hr) ▸ rfl
  | cons e es ih =>
    simp only [run] at hr
    cases hs : step s e with
    | none =>
      rw [hs] at hr
      simp at hr
    | some s2 =>
      rw [hs] at hr
      have hi := ih hr
      rcases step_cases hs with
          ⟨he, rfl⟩ | ⟨w, i, rest, he, hwd, hh, hq, rfl⟩ | ⟨w, i, q, he, hh, hoq, rfl⟩ |
          ⟨w, he, hwd, hh, habe, hqe, rfl⟩ | ⟨qs2, he, hod, hpm, rfl⟩ | ⟨he, rfl⟩ |
          ⟨he, habe, hall, rfl⟩ | ⟨he, hod, habo, hall, rfl⟩ <;>
        simpa [List.length_set] using hi

/-! ### The claim theorems about the pipeline -/

/-- C1: for every run of a pipeline with at least one worker in which all
submissions precede the start of shutdown (`okTrace`), if the run ends with
the output thread terminated, then the sink received exactly `N` deliveries
where `N` is the number of frames submitted, in strictly increasing
sequence-index order starting at 0 with no duplicates and no gaps: the
delivered index sequence is literally `[0, 1, ..., N-1]`. -/
theorem c1_sink_receives_all_in_order (n : Nat) (es : List Ev) (st : St)
    (hn : 0 < n) (hok : okTrace false es = true)
    (hr : run (init n) es = some st) (hdone : st.outputDone = true) :
    st.delivered.map Prod.fst = List.range (countSubmit es)
      ∧ st.index_ = countSubmit es := by
  have hI : Inv st := run_inv (init_inv n) (by simpa [init] using hok) hr
  have hidx : st.index_ = countSubmit es := by
    have := run_index hr
    simpa [init] using this
  have hlen : st.workerDone.length = n := by
    have := run_wlen hr
    simpa [init] using this
  have habo : st.abortOutput = true := hI.a5 hdone
  have hq10 := hI.a10 hdone
  have hw0 : st.workerDone[0]? = some true := by
    rcases getElem?_some_of_lt (show 0 < st.workerDone.length by omega) with ⟨b, hb⟩
    have := hI.a6 habo b (List.getElem?_mem hb)
    rw [this] at hb
    exact hb
  have hqe : st.encode_queue = [] := hI.a8 0 hw0
  have hhold : ∀ x ∈ st.holding, x = none := by
    intro x hx
    rcases List.mem_iff_getElem?.mp hx with ⟨w, hw⟩
    have hwlt : w < st.workerDone.length := hI.len_h ▸ lt_of_getElem? hw
    rcases getElem?_some_of_lt hwlt with ⟨b, hb⟩
    have hbt := hI.a6 habo b (List.getElem?_mem hb)
    have h7 := hI.a7 w (by rw [hb, hbt])
    rw [hw] at h7
    exact Option.some.inj h7
  have hpend : ∀ m ∈ pending st, False := by
    intro m hm
    rcases mem_pending.mp hm with h | h | h
    · rw [hqe] at h
      simp at h
    · have := hhold (some m) h
      simp at this
    · rcases List.mem_flatten.mp h with ⟨l, hl, hml⟩
      rw [hq10 l hl] at hml
      simp at hml
  have hle : st.index_ ≤ st.outIndex := by
    by_contra hlt
    push_neg at hlt
    rcases hI.a3 st.outIndex hlt with hD | hP
    · rw [hI.a1] at hD
      simp [List.mem_range] at hD
    · exact hpend _ hP
  have heq : st.outIndex = st.index_ := le_antisymm hI.a11 hle
  refine ⟨?_, hidx⟩
  rw [hI.a1, heq, hidx]

/-- The events of one complete demonstration run: two frames submitted, the
workers finish out of order (worker 1 pushes frame 1 before worker 0 pushes
frame 0), both frames are delivered in order, then the pipeline shuts down. -/
def demoTrace : List Ev :=
  [Ev.submit, Ev.submit, Ev.take 0, Ev.take 1, Ev.push 1, Ev.push 0,
    Ev.deliver, Ev.deliver, Ev.stopEncode, Ev.wexit 0, Ev.wexit 1,
    Ev.stopOutput, Ev.oexit]

/-- The final state of `demoTrace` on a two-worker pipeline. -/
def demoSt : St :=
  { index_ := 2
    encode_queue := []
    holding := [none, none]
    output_queue := [[], []]
    workerDone := [true, true]
    delivered := [(0, true), (1, true)]
    outIndex := 2
    abortEncode := true
    abortOutput := true
    outputDone := true
    assigned := [0, 1]
    log := [Act.compressDone 1, Act.compressDone 0, Act.release,
      Act.emit 0 true, Act.release, Act.emit 1 true] }

theorem c1_sink_receives_all_in_order_witness :
    (0 < 2 ∧ okTrace false demoTrace = true
      ∧ run (init 2) demoTrace = some demoSt ∧ demoSt.outputDone = true)
    ∧ demoSt.delivered.map Prod.fst = List.range (countSubmit demoTrace) :=
  ⟨⟨by decide, by decide, by decide, rfl⟩,
    (c1_sink_receives_all_in_order 2 demoTrace demoSt (by decide) (by decide)
      (by decide) rfl).1⟩

/-- C2: in every run, the sequence indices assigned by `EncodeBuffer` at
enqueue time, listed in submission order, are exactly `[0, 1, ..., N-1]`
where `N` is the number of submissions: contiguous, strictly increasing by
one from 0, never reused or skipped. -/
theorem c2_indices_contiguous (n : Nat) (es : List Ev) (st : St)
    (hr : run (init n) es = some st) :
    st.assigned = List.range st.index_ ∧ st.index_ = countSubmit es := by
  constructor
  · exact run_assigned hr (by simp [init])
  · have := run_index hr
    simpa [init] using this

theorem c2_indices_contiguous_witness :
    run (init 2) demoTrace = some demoSt
      ∧ demoSt.assigned = List.range demoSt.index_ :=
  ⟨by decide, (c2_indices_contiguous 2 demoTrace demoSt (by decide)).1⟩

/-- The state reached by shutting down a one-worker pipeline and then calling
`EncodeBuffer`. -/
def st_c3 : St :=
  { index_ := 1
    encode_queue := [0]
    holding := [none]
    output_queue := [[]]
    workerDone := [false]
    delivered := []
    outIndex := 0
    abortEncode := true
    abortOutput := false
    outputDone := false
    assigned := [0]
    log := [] }

/-- C3 counterexample: the claim says a submission made after shutdown has
been initiated fails with `QueueClosed` and the frame is not enqueued.  In
the code `EncodeBuffer` (lines 47-53) performs no shutdown check at all: in
the concrete run `[stopEncode, submit]` the submission made after
`abortEncode_` was set still succeeds, the frame is assigned index 0 and is
enqueued (`encode_queue = [0]`). -/
theorem c3_submit_after_shutdown_accepted :
    run (init 1) [Ev.stopEncode, Ev.submit] = some st_c3
      ∧ st_c3.abortEncode = true ∧ st_c3.encode_queue = [0]
      ∧ st_c3.assigned = [0] := by
  refine ⟨by decide, rfl, rfl, rfl⟩

/-- C3 (amended): `EncodeBuffer` never fails and never checks for shutdown:
every submission, including one made after shutdown has been initiated,
is assigned the next sequence index and appended to the shared FIFO.
There is no `QueueClosed` error in this code. -/
theorem c3_submit_never_fails (s : St) (hab : s.abortEncode = true) :
    step s Ev.submit = some { s with
      index_ := s.index_ + 1
      encode_queue := s.encode_queue ++ [s.index_]
      assigned := s.assigned ++ [s.index_] } := rfl

theorem c3_submit_never_fails_witness :
    st_c3.abortEncode = true ∧
    step st_c3 Ev.submit = some { st_c3 with
      index_ := st_c3.index_ + 1
      encode_queue := st_c3.encode_queue ++ [st_c3.index_]
      assigned := st_c3.assigned ++ [st_c3.index_] } :=
  ⟨rfl, c3_submit_never_fails st_c3 rfl⟩

/-- The state in which worker 1 has compressed frame 1 (its compression has
completed, `compressDone 1` is logged) while frame 0 is still being encoded
by worker 0: no release has been signalled, and none can be signalled yet. -/
def st_c9 : St :=
  { index_ := 2
    encode_queue := []
    holding := [some 0, none]
    output_queue := [[], [1]]
    workerDone := [false, false]
    delivered := []
    outIndex := 0
    abortEncode := false
    abortOutput := false
    outputDone := false
    assigned := [0, 1]
    log := [Act.compressDone 1] }

/-- C9 counterexample: the claim says buffer release is signalled immediately
after the compressor finishes reading a frame's raw buffer.  In the concrete
run reaching `st_c9`, frame 1's compression has completed
(`countCompress = 1`) but no `input_done_callback_` has run
(`countRelease = 0`), and the `deliver` step is not even enabled: release
only ever happens in `outputThread` when the frame's in-order turn comes
(line 385), after reordering, not after compression. -/
theorem c9_release_not_after_compression :
    run (init 2) [Ev.submit, Ev.submit, Ev.take 0, Ev.take 1, Ev.push 1]
        = some st_c9
      ∧ countCompress st_c9.log = 1 ∧ countRelease st_c9.log = 0
      ∧ step st_c9 Ev.deliver = none := by
  refine ⟨by decide, rfl, rfl, by decide⟩

/-- C9 (amended): buffer release is signalled by the order-reassembly stage,
once per delivered frame, in the same step that emits the segment to the
sink (`input_done_callback_` at line 385 runs just before
`output_ready_callback_` at line 387): in every reachable state the number
of release signals equals the number of deliveries, not the number of
completed compressions. -/
theorem c9_release_at_emission (n : Nat) (es : List Ev) (st : St)
    (hr : run (init n) es = some st) :
    countRelease st.log = st.delivered.length
      ∧ countEmit st.log = st.delivered.length :=
  run_release_counts hr (by simp [init, countRelease, countEmit])

theorem c9_release_at_emission_witness :
    run (init 2) demoTrace = some demoSt
      ∧ countRelease demoSt.log = demoSt.delivered.length :=
  ⟨by decide, (c9_release_at_emission 2 demoTrace demoSt (by decide)).1⟩

/-- C10: every delivery made by the order-reassembly stage passes the
final-segment flag as `true`: `outputThread` calls
`output_ready_callback_(item.mem, item.bytes_used, item.timestamp_us, true)`
with a literal `true` (line 387), for every frame of every run. -/
theorem c10_final_flag_always_true (n : Nat) (es : List Ev) (st : St)
    (hr : run (init n) es = some st) :
    ∀ p ∈ st.delivered, p.2 = true :=
  run_delivered_flags hr (by simp [init])

theorem c10_final_flag_always_true_witness :
    ((0, true) ∈ demoSt.delivered ∧ ((0 : Nat), true).2 = true) :=
  ⟨by decide,
    c10_final_flag_always_true 2 demoTrace demoSt (by decide) (0, true) (by decide)⟩

end JE
